import Mathlib

/- A shallow embedding of the binary search tree implemented in
   src/bintree.h and src/bintree.cpp, together with theorems about
   its operations.

   A tree node (struct Node) holds a raw pointer to a heap allocated
   NodeData object.  A NodeData pointer is modelled as a pair of the
   address of the object and the value it carries, so that pointer
   identity and value equality are both expressible. -/

namespace BinTree

/-- Modelled from the spec: the element type NodeData (its file
nodedata.h is not part of the sources) supplies a total order, an
equality test and a textual rendering; it is modelled as an integer
value.  An element handle, as stored in a node, is the pair of the
address of the owning NodeData object and that value. -/
abbrev Elem := Nat × Int

/-- The tree structure: struct Node of bintree.h, with the root
pointer inlined (an absent pointer is the nil constructor). -/
inductive Tree where
  | nil : Tree
  | node (data : Elem) (left : Tree) (right : Tree) : Tree
deriving DecidableEq

/-- Inorder traversal of the node data, as performed by
BinTree::inorderHelper (left subtree, node, right subtree). -/
def inorder : Tree → List Elem
  | .nil => []
  | .node d l r => inorder l ++ d :: inorder r

/-- The values held by a tree, in inorder sequence. -/
def vals (t : Tree) : List Int := (inorder t).map Prod.snd

/-- Number of elements held by a tree. -/
def count (t : Tree) : Nat := (inorder t).length

/-- Height of a tree: 0 for the empty tree, 1 for a single node. -/
def height : Tree → Nat
  | .nil => 0
  | .node _ l r => max (height l) (height r) + 1

/-- BinTree::isEmpty: the root pointer is null. -/
def isEmpty : Tree → Bool
  | .nil => true
  | .node _ _ _ => false

/-- BinTree::destroyTree sets the root pointer to null; the structural
result of BinTree::makeEmpty. -/
def destroyTree (_ : Tree) : Tree := .nil

/-- BinTree::compare of bintree.cpp lines 178-198.  The test on the
data of two non-null nodes is lhs->data == rhs->data, a comparison of
the two NodeData pointers, hence of the addresses in this model. -/
def compare : Tree → Tree → Bool
  | .nil, .nil => true
  | .node d1 l1 r1, .node d2 l2 r2 =>
      decide (d1.1 = d2.1) && compare l1 l2 && compare r1 r2
  | _, _ => false

/-- The comparison described by the documentation of operator==: the
trees have identical structure and hold equal data values at every
corresponding position. -/
def sameShapeVals : Tree → Tree → Bool
  | .nil, .nil => true
  | .node d1 l1 r1, .node d2 l2 r2 =>
      decide (d1.2 = d2.2) && sameShapeVals l1 l2 && sameShapeVals r1 r2
  | _, _ => false

/-- BinTree::copyTree: a preorder structural copy in which every
NodeData object is duplicated via new NodeData(*treePtr->data).  The
Nat argument is the allocator counter: each duplicated NodeData object
receives the next fresh address; the updated counter is returned. -/
def copyTree : Tree → Nat → Tree × Nat
  | .nil, c => (.nil, c)
  | .node d l r, c =>
      let lc := copyTree l (c + 1)
      let rc := copyTree r lc.2
      (.node (c, d.2) lc.1 rc.1, rc.2)

/-- BinTree::insertItem of bintree.cpp lines 275-313: descend by value
comparison, reject an equal value, insert as a leaf at a null link.
Returns the updated tree and the success flag. -/
def insertItem : Tree → Elem → Tree × Bool
  | .nil, newItem => (.node newItem .nil .nil, true)
  | .node d l r, newItem =>
      if newItem.2 = d.2 then (.node d l r, false)
      else if newItem.2 < d.2 then
        let res := insertItem l newItem
        (.node d res.1 r, res.2)
      else
        let res := insertItem r newItem
        (.node d l res.1, res.2)

/-- BinTree::insert delegates to insertItem on the root. -/
def insert (t : Tree) (newItem : Elem) : Tree × Bool := insertItem t newItem

/-- BinTree::retrieveItem of bintree.cpp lines 340-368: ordered
descent; on a value match the NodeData pointer is handed out. -/
def retrieveItem : Tree → Int → Option Elem
  | .nil, _ => none
  | .node d l r, searchItem =>
      if searchItem = d.2 then some d
      else if searchItem < d.2 then retrieveItem l searchItem
      else retrieveItem r searchItem

/-- BinTree::depth of bintree.cpp lines 433-462: exhaustive search,
left subtree first, 0 when absent, 1 at the matching node, one more
per level above the match. -/
def depth : Tree → Int → Nat
  | .nil, _ => 0
  | .node d l r, dataItem =>
      if dataItem = d.2 then 1
      else
        let lv1 := depth l dataItem
        let lv2 := if lv1 = 0 then depth r dataItem else lv1
        if lv2 > 0 then lv2 + 1 else lv2

/-- BinTree::getDepth delegates to depth on the root. -/
def getDepth (t : Tree) (searchItem : Int) : Nat := depth t searchItem

/-- A tree with possibly null data pointers, as produced by
BinTree::inorderToArray, which moves data out of the nodes. -/
inductive TreeO where
  | nil : TreeO
  | node (data : Option Elem) (left : TreeO) (right : TreeO) : TreeO
deriving DecidableEq

/-- View a tree as a tree with optional data (all pointers non-null). -/
def Tree.toO : Tree → TreeO
  | .nil => .nil
  | .node d l r => .node (some d) l.toO r.toO

/-- Inorder sequence of the data pointers of a TreeO. -/
def inorderO : TreeO → List (Option Elem)
  | .nil => []
  | .node d l r => inorderO l ++ d :: inorderO r

/-- A tree whose data pointers have all been set to null. -/
def stripO : TreeO → TreeO
  | .nil => .nil
  | .node _ l r => .node none (stripO l) (stripO r)

/-- The NodeData objects deleted by BinTree::destroyTree: a postorder
walk deleting each non-null data pointer. -/
def destroyFrees : TreeO → List Elem
  | .nil => []
  | .node d l r => destroyFrees l ++ destroyFrees r ++ d.toList

/-- The NodeData* array handled by bstreeToArray and arrayToBSTree:
100 slots, each either null or holding one element. -/
abbrev Buffer := List (Option Elem)

/-- The all-null array of 100 slots that bstreeToArray requires. -/
def emptyBuffer : Buffer := List.replicate 100 none

/-- BinTree::inorderToArray of bintree.cpp lines 497-506: inorder
walk, moving each data pointer into the array at the running index and
nulling it in the node.  Returns the array, the final index and the
stripped tree. -/
def inorderToArray : TreeO → Buffer → Nat → Buffer × Nat × TreeO
  | .nil, target, index => (target, index, .nil)
  | .node d l r, target, index =>
      let resL := inorderToArray l target index
      let target2 := resL.1.set resL.2.1 d
      let resR := inorderToArray r target2 (resL.2.1 + 1)
      (resR.1, resR.2.1, .node none resL.2.2 resR.2.2)

/-- BinTree::bstreeToArray of bintree.cpp lines 473-481: move the tree
into the array starting at index 10, then destroy the tree.  Returns
the array, the emptied tree and the list of NodeData objects deleted
by the final destroyTree call. -/
def bstreeToArray (t : Tree) (target : Buffer) : Buffer × Tree × List Elem :=
  let res := inorderToArray t.toO target 10
  (res.1, destroyTree t, destroyFrees res.2.2)

/-- The scan loop of BinTree::arrayToBSTree, advancing while the index
is below 100 and the slot is non-null.  The fuel argument bounds the
iteration count; 100 - high steps always suffice. -/
def scanHighAux : Nat → Buffer → Nat → Nat
  | 0, _, high => high
  | fuel + 1, source, high =>
      if high < 100 ∧ (source.getD high none).isSome then
        scanHighAux fuel source (high + 1)
      else high

/-- Result of the scan loop of BinTree::arrayToBSTree started at a
given index. -/
def scanHigh (source : Buffer) (high : Nat) : Nat :=
  scanHighAux (100 - high) source high

/-- BinTree::bisectBuild of bintree.cpp lines 549-562: insert the
middle element of the segment, null its slot, then recurse on the two
half segments; when the insert fails the whole segment is abandoned.
Bounds are Nat: every call reachable from arrayToBSTree keeps
10 <= low and low - 1 <= high, where C int and Nat arithmetic agree.
The fuel argument bounds the recursion depth; a fuel of the segment
length always suffices.  A null slot at mid is never dereferenced in a
call reachable from arrayToBSTree, since the scan guarantees the whole
segment is non-null; the model reads a default element there. -/
def bisectBuild : Nat → Buffer → Tree → Nat → Nat → Buffer × Tree
  | 0, source, t, _, _ => (source, t)
  | fuel + 1, source, t, low, high =>
      let mid := (low + high) / 2
      if low ≤ mid then
        let item := (source.getD mid none).getD (0, 0)
        let res := insert t item
        if res.2 then
          let source2 := source.set mid none
          let resL := bisectBuild fuel source2 res.1 low (mid - 1)
          bisectBuild fuel resL.1 resL.2 (mid + 1) high
        else (source, res.1)
      else (source, t)

/-- BinTree::arrayToBSTree of bintree.cpp lines 517-534: destroy the
current tree, scan forward from index 10 for the last element of the
contiguous run, and build a balanced tree from the run by bisection
when slot 10 is occupied. -/
def arrayToBSTree (source : Buffer) (t : Tree) : Buffer × Tree :=
  let low := 10
  let t0 := destroyTree t
  let high := scanHigh source low - 1
  if (source.getD low none).isSome then
    bisectBuild (high + 1 - low) source t0 low high
  else (source, t0)

/-- The contiguous run of elements that arrayToBSTree reads: the slots
from index 10 up to the first null slot or index 100. -/
def runSlots (source : Buffer) : List Elem :=
  (List.range (scanHigh source 10 - 10)).map
    fun j => (source.getD (10 + j) none).getD (0, 0)

/-- Export of bstreeToArray followed by import of arrayToBSTree on the
produced array, starting from the all-null array. -/
def roundTrip (t : Tree) : Tree :=
  (arrayToBSTree (bstreeToArray t emptyBuffer).1 (bstreeToArray t emptyBuffer).2.1).2

/-- Fold of insert over a list of items, left to right: the tree
obtained from a sequence of insert calls. -/
def insertAll (t : Tree) (items : List Elem) : Tree :=
  items.foldl (fun acc x => (insertItem acc x).1) t

/-- The tree obtained from a sequence of insert calls on an initially
empty tree. -/
def buildList (items : List Elem) : Tree := insertAll Tree.nil items

/-- The order in which bisectBuild inserts a segment: middle element
first, then the left half, then the right half. -/
def bisectSeq (l : List Elem) : List Elem :=
  if h : l = [] then []
  else
    l.getD ((l.length - 1) / 2) (0, 0) ::
      (bisectSeq (l.take ((l.length - 1) / 2)) ++
        bisectSeq (l.drop ((l.length - 1) / 2 + 1)))
termination_by l.length
decreasing_by
  · have hl : 0 < l.length := List.length_pos.mpr h
    simp only [List.length_take]
    omega
  · have hl : 0 < l.length := List.length_pos.mpr h
    simp only [List.length_drop]
    omega

/-- The shape that the bisection insertions of a sorted segment carve
out: middle element at the root, halves below. -/
def bisectTree (l : List Elem) : Tree :=
  if h : l = [] then .nil
  else
    .node (l.getD ((l.length - 1) / 2) (0, 0))
      (bisectTree (l.take ((l.length - 1) / 2)))
      (bisectTree (l.drop ((l.length - 1) / 2 + 1)))
termination_by l.length
decreasing_by
  · have hl : 0 < l.length := List.length_pos.mpr h
    simp only [List.length_take]
    omega
  · have hl : 0 < l.length := List.length_pos.mpr h
    simp only [List.length_drop]
    omega

/-- The binary search tree ordering invariant: every element of a left
subtree orders strictly before the node value, every element of a
right subtree strictly after, recursively. -/
def BST : Tree → Prop
  | .nil => True
  | .node d l r =>
      (∀ x ∈ inorder l, x.2 < d.2) ∧ (∀ x ∈ inorder r, d.2 < x.2) ∧
        BST l ∧ BST r

instance instDecBST : (t : Tree) → Decidable (BST t)
  | .nil => isTrue trivial
  | .node d l r =>
      letI : Decidable (BST l) := instDecBST l
      letI : Decidable (BST r) := instDecBST r
      decidable_of_iff
        ((∀ x ∈ inorder l, x.2 < d.2) ∧ (∀ x ∈ inorder r, d.2 < x.2) ∧
          BST l ∧ BST r) Iff.rfl

/-- An element with the given value is stored at the given 1-based
nesting level of the tree: level 1 is the root, level k + 1 is level k
of a child. -/
def storedAtLevelB : Tree → Int → Nat → Bool
  | .nil, _, _ => false
  | .node _ _ _, _, 0 => false
  | .node d _ _, x, 1 => decide (d.2 = x)
  | .node _ l r, x, k + 2 =>
      storedAtLevelB l x (k + 1) || storedAtLevelB r x (k + 1)

/-- A history step on one tree object: an insert call, or one of the
clearing operations (makeEmpty, destructor, assignment overwrite,
array export), all of which empty the tree. -/
inductive Op where
  | ins (item : Elem) : Op
  | wipe : Op
deriving DecidableEq

/-- Effect of one history step on the tree. -/
def applyOp (t : Tree) : Op → Tree
  | .ins item => (insertItem t item).1
  | .wipe => destroyTree t

/-- The tree reached by a history of inserts and clearing operations,
starting from the empty tree of the default constructor. -/
def runOps (ops : List Op) : Tree := ops.foldl applyOp Tree.nil

/-- Effect of one history step on the list of elements inserted since
the last clearing operation. -/
def accOp (pending : List Elem) : Op → List Elem
  | .ins item => pending ++ [item]
  | .wipe => []

/-- The elements passed to insert since the last clearing operation of
a history. -/
def insertedSince (ops : List Op) : List Elem := ops.foldl accOp []

/-- Write a list of data pointers into the array at consecutive
indices. -/
def writeSeq (buf : Buffer) (i : Nat) : List (Option Elem) → Buffer
  | [] => buf
  | a :: rest => writeSeq (buf.set i a) (i + 1) rest

/-- A 100 slot array whose contiguous run at index 10 holds the single
value 7. -/
def oneBuf : Buffer :=
  List.replicate 10 none ++
    (some ((0, 7) : Elem) :: List.replicate 89 none)

/-- A 100 slot array whose contiguous run at index 10 holds the values
1, 2, 1, 3: the value 1 repeats, so the bisection insert of slot 12
fails and slots 12 and 13 are abandoned by bisectBuild. -/
def cexBuf : Buffer :=
  List.replicate 10 none ++
    ([some ((0, 1) : Elem), some ((1, 2) : Elem),
      some ((2, 1) : Elem), some ((3, 3) : Elem)] ++ List.replicate 86 none)

/- Basic structural facts. -/

theorem inorder_node (d : Elem) (l r : Tree) :
    inorder (.node d l r) = inorder l ++ d :: inorder r := rfl

theorem vals_node (d : Elem) (l r : Tree) :
    vals (.node d l r) = vals l ++ d.2 :: vals r := by
  simp [vals, inorder]

theorem forall_vals_lt (t : Tree) (b : Int) :
    (∀ x ∈ inorder t, x.2 < b) ↔ ∀ y ∈ vals t, y < b := by
  simp only [vals, List.mem_map]
  constructor
  · rintro h y ⟨x, hx, rfl⟩
    exact h x hx
  · intro h x hx
    exact h x.2 ⟨x, hx, rfl⟩

theorem forall_vals_gt (t : Tree) (b : Int) :
    (∀ x ∈ inorder t, b < x.2) ↔ ∀ y ∈ vals t, b < y := by
  simp only [vals, List.mem_map]
  constructor
  · rintro h y ⟨x, hx, rfl⟩
    exact h x hx
  · intro h x hx
    exact h x.2 ⟨x, hx, rfl⟩

theorem BST_nil : BST Tree.nil := trivial

theorem BST_node (d : Elem) (l r : Tree) :
    BST (.node d l r) ↔
      (∀ x ∈ inorder l, x.2 < d.2) ∧ (∀ x ∈ inorder r, d.2 < x.2) ∧
        BST l ∧ BST r :=
  Iff.rfl

theorem BST_iff_pairwise : ∀ t : Tree, BST t ↔ (vals t).Pairwise (· < ·)
  | .nil => by simp [vals, inorder, BST_nil]
  | .node d l r => by
      rw [BST_node, vals_node, List.pairwise_append, List.pairwise_cons,
        BST_iff_pairwise l, BST_iff_pairwise r, forall_vals_lt, forall_vals_gt]
      constructor
      · rintro ⟨hl, hr, pl, pr⟩
        refine ⟨pl, ⟨hr, pr⟩, ?_⟩
        intro a ha b hb
        rcases List.mem_cons.mp hb with hb | hb
        · exact hb ▸ hl a ha
        · exact lt_trans (hl a ha) (hr b hb)
      · rintro ⟨pl, ⟨hr, pr⟩, hcross⟩
        exact ⟨fun y hy => hcross y hy d.2 (List.mem_cons_self _ _), hr, pl, pr⟩

/- Facts about insertItem. -/

theorem insertItem_nil (x : Elem) :
    insertItem Tree.nil x = (.node x .nil .nil, true) := rfl

theorem insertItem_eq (d : Elem) (l r : Tree) (x : Elem) (h : x.2 = d.2) :
    insertItem (.node d l r) x = (.node d l r, false) := by
  simp [insertItem, h]

theorem insertItem_lt (d : Elem) (l r : Tree) (x : Elem) (h : x.2 < d.2) :
    insertItem (.node d l r) x =
      (.node d (insertItem l x).1 r, (insertItem l x).2) := by
  simp [insertItem, ne_of_lt h, h]

theorem insertItem_gt (d : Elem) (l r : Tree) (x : Elem) (h : d.2 < x.2) :
    insertItem (.node d l r) x =
      (.node d l (insertItem r x).1, (insertItem r x).2) := by
  simp [insertItem, (ne_of_lt h).symm, asymm h]

theorem mem_inorder_insertItem :
    ∀ (t : Tree) (x y : Elem),
      y ∈ inorder (insertItem t x).1 → y ∈ inorder t ∨ y = x := by
  intro t x
  induction t with
  | nil =>
      intro y h
      simp only [insertItem_nil, inorder, List.nil_append,
        List.mem_singleton] at h
      exact Or.inr h
  | node d l r ihl ihr =>
      intro y h
      rcases lt_trichotomy x.2 d.2 with hc | hc | hc
      · rw [insertItem_lt d l r x hc] at h
        simp only [inorder_node, List.mem_append, List.mem_cons] at h ⊢
        rcases h with h | h
        · rcases ihl y h with h2 | h2
          · exact Or.inl (Or.inl h2)
          · exact Or.inr h2
        · exact Or.inl (Or.inr h)
      · rw [insertItem_eq d l r x hc] at h
        exact Or.inl h
      · rw [insertItem_gt d l r x hc] at h
        simp only [inorder_node, List.mem_append, List.mem_cons] at h ⊢
        rcases h with h | h
        · exact Or.inl (Or.inl h)
        · rcases h with h | h
          · exact Or.inl (Or.inr (Or.inl h))
          · rcases ihr y h with h2 | h2
            · exact Or.inl (Or.inr (Or.inr h2))
            · exact Or.inr h2

theorem mem_vals_insertItem :
    ∀ (t : Tree) (x : Elem) (y : Int),
      y ∈ vals (insertItem t x).1 ↔ y ∈ vals t ∨ y = x.2 := by
  intro t x
  induction t with
  | nil =>
      intro y
      simp [insertItem_nil, vals, inorder]
  | node d l r ihl ihr =>
      intro y
      rcases lt_trichotomy x.2 d.2 with hc | hc | hc
      · rw [insertItem_lt d l r x hc]
        simp only [vals_node, List.mem_append, List.mem_cons, ihl]
        tauto
      · rw [insertItem_eq d l r x hc]
        simp only [vals_node, List.mem_append, List.mem_cons]
        constructor
        · tauto
        · rintro ((h | h) | h) <;> try tauto
          exact Or.inr (Or.inl (by rw [h, hc]))
      · rw [insertItem_gt d l r x hc]
        simp only [vals_node, List.mem_append, List.mem_cons, ihr]
        tauto

theorem insertItem_success :
    ∀ (t : Tree) (x : Elem), x.2 ∉ vals t → (insertItem t x).2 = true := by
  intro t x
  induction t with
  | nil => intro _; rfl
  | node d l r ihl ihr =>
      intro h
      simp only [vals_node, List.mem_append, List.mem_cons] at h
      push_neg at h
      obtain ⟨hl, hd, hr⟩ := h
      rcases lt_trichotomy x.2 d.2 with hc | hc | hc
      · rw [insertItem_lt d l r x hc]; exact ihl hl
      · exact absurd hc hd
      · rw [insertItem_gt d l r x hc]; exact ihr hr

theorem BST_insertItem :
    ∀ (t : Tree) (x : Elem), BST t → BST (insertItem t x).1 := by
  intro t x
  induction t with
  | nil =>
      intro _
      simp [insertItem_nil, BST_node, inorder, BST_nil]
  | node d l r ihl ihr =>
      intro hb
      rw [BST_node] at hb
      obtain ⟨hl, hr, bl, br⟩ := hb
      rcases lt_trichotomy x.2 d.2 with hc | hc | hc
      · rw [insertItem_lt d l r x hc, BST_node]
        refine ⟨?_, hr, ihl bl, br⟩
        intro y hy
        rcases mem_inorder_insertItem l x y hy with h2 | h2
        · exact hl y h2
        · exact h2 ▸ hc
      · rw [insertItem_eq d l r x hc, BST_node]
        exact ⟨hl, hr, bl, br⟩
      · rw [insertItem_gt d l r x hc, BST_node]
        refine ⟨hl, ?_, bl, ihr br⟩
        intro y hy
        rcases mem_inorder_insertItem r x y hy with h2 | h2
        · exact hr y h2
        · exact h2 ▸ hc

theorem insertItem_mem_fail :
    ∀ (t : Tree) (x : Elem), BST t → x.2 ∈ vals t →
      insertItem t x = (t, false) := by
  intro t x
  induction t with
  | nil => intro _ hm; simp [vals, inorder] at hm
  | node d l r ihl ihr =>
      intro hb hm
      rw [BST_node] at hb
      obtain ⟨hl, hr, bl, br⟩ := hb
      rw [forall_vals_lt] at hl
      rw [forall_vals_gt] at hr
      rcases lt_trichotomy x.2 d.2 with hc | hc | hc
      · have hml : x.2 ∈ vals l := by
          rw [vals_node] at hm
          rcases List.mem_append.mp hm with h | h
          · exact h
          · rcases List.mem_cons.mp h with h | h
            · exact absurd h (ne_of_lt hc)
            · exact absurd (hr x.2 h) (by omega)
        rw [insertItem_lt d l r x hc, ihl bl hml]
      · exact insertItem_eq d l r x hc
      · have hmr : x.2 ∈ vals r := by
          rw [vals_node] at hm
          rcases List.mem_append.mp hm with h | h
          · exact absurd (hl x.2 h) (by omega)
          · rcases List.mem_cons.mp h with h | h
            · exact absurd h (ne_of_lt hc).symm
            · exact h
        rw [insertItem_gt d l r x hc, ihr br hmr]

/- Facts about insertAll and buildList. -/

theorem insertAll_cons (t : Tree) (x : Elem) (s : List Elem) :
    insertAll t (x :: s) = insertAll (insertItem t x).1 s := rfl

theorem insertAll_append (t : Tree) (s1 s2 : List Elem) :
    insertAll t (s1 ++ s2) = insertAll (insertAll t s1) s2 :=
  List.foldl_append _ _ _ _

theorem BST_insertAll :
    ∀ (s : List Elem) (t : Tree), BST t → BST (insertAll t s) := by
  intro s
  induction s with
  | nil => exact fun t h => h
  | cons x s ih =>
      intro t h
      rw [insertAll_cons]
      exact ih _ (BST_insertItem t x h)

theorem mem_vals_insertAll :
    ∀ (s : List Elem) (t : Tree) (y : Int),
      y ∈ vals (insertAll t s) ↔ y ∈ vals t ∨ y ∈ s.map Prod.snd := by
  intro s
  induction s with
  | nil => simp [insertAll]
  | cons x s ih =>
      intro t y
      rw [insertAll_cons, ih, mem_vals_insertItem]
      simp only [List.map_cons, List.mem_cons]
      tauto

theorem BST_buildList (s : List Elem) : BST (buildList s) :=
  BST_insertAll s Tree.nil BST_nil

theorem mem_vals_buildList (s : List Elem) (y : Int) :
    y ∈ vals (buildList s) ↔ y ∈ s.map Prod.snd := by
  rw [buildList, mem_vals_insertAll]
  simp [vals, inorder]

/- Facts about retrieveItem. -/

theorem retrieveItem_some :
    ∀ (t : Tree) (x : Int) (d : Elem),
      retrieveItem t x = some d → d.2 = x ∧ d ∈ inorder t := by
  intro t x
  induction t with
  | nil => intro d h; simp [retrieveItem] at h
  | node dd l r ihl ihr =>
      intro d h
      by_cases h1 : x = dd.2
      · simp only [retrieveItem, h1, if_pos] at h
        cases h
        exact ⟨h1.symm, by simp [inorder_node]⟩
      · by_cases h2 : x < dd.2
        · simp only [retrieveItem, h1, h2, if_neg, if_pos, if_true,
            if_false] at h
          obtain ⟨ha, hb⟩ := ihl d h
          exact ⟨ha, by simp [inorder_node, hb]⟩
        · simp only [retrieveItem, h1, h2, if_neg, if_false] at h
          obtain ⟨ha, hb⟩ := ihr d h
          exact ⟨ha, by simp [inorder_node, hb]⟩

theorem retrieveItem_isSome_iff :
    ∀ (t : Tree) (x : Int), BST t →
      ((retrieveItem t x).isSome = true ↔ x ∈ vals t) := by
  intro t x
  induction t with
  | nil => intro _; simp [retrieveItem, vals, inorder]
  | node d l r ihl ihr =>
      intro hb
      rw [BST_node] at hb
      obtain ⟨hl, hr, bl, br⟩ := hb
      rw [forall_vals_lt] at hl
      rw [forall_vals_gt] at hr
      by_cases h1 : x = d.2
      · simp [retrieveItem, h1, vals_node]
      · by_cases h2 : x < d.2
        · have hnr : x ∉ vals r := fun hm => absurd (hr x hm) (by omega)
          simp only [retrieveItem, h1, h2, if_neg, if_pos, if_false,
            if_true, ihl bl, vals_node, List.mem_append, List.mem_cons]
          tauto
        · have hnl : x ∉ vals l := fun hm => absurd (hl x hm) (by omega)
          simp only [retrieveItem, h1, h2, if_neg, if_false, ihr br,
            vals_node, List.mem_append, List.mem_cons]
          tauto

/- Facts about operation histories. -/

theorem foldl_applyOp_buildList :
    ∀ (ops : List Op) (s : List Elem),
      (ops.foldl applyOp (buildList s)) =
        buildList (ops.foldl accOp s) := by
  intro ops
  induction ops with
  | nil => intro s; rfl
  | cons op ops ih =>
      intro s
      cases op with
      | ins item =>
          have : applyOp (buildList s) (.ins item) = buildList (s ++ [item]) := by
            simp [applyOp, buildList, insertAll_append, insertAll,
              insertAll_cons]
          simp only [List.foldl_cons, this, ih (s ++ [item]), accOp]
      | wipe =>
          have : applyOp (buildList s) .wipe = buildList [] := rfl
          simp only [List.foldl_cons, this, ih [], accOp]

theorem runOps_eq_buildList (ops : List Op) :
    runOps ops = buildList (insertedSince ops) := by
  have h0 : (Tree.nil : Tree) = buildList [] := rfl
  rw [runOps, insertedSince, h0]
  exact foldl_applyOp_buildList ops []

/- Facts about depth. -/

theorem depth_node (d : Elem) (l r : Tree) (x : Int) :
    depth (.node d l r) x =
      if x = d.2 then 1
      else
        if (if depth l x = 0 then depth r x else depth l x) > 0 then
          (if depth l x = 0 then depth r x else depth l x) + 1
        else (if depth l x = 0 then depth r x else depth l x) := rfl

theorem depth_not_mem :
    ∀ (t : Tree) (x : Int), x ∉ vals t → depth t x = 0 := by
  intro t x
  induction t with
  | nil => intro _; rfl
  | node d l r ihl ihr =>
      intro h
      simp only [vals_node, List.mem_append, List.mem_cons] at h
      push_neg at h
      obtain ⟨hl, hd, hr⟩ := h
      rw [depth_node, if_neg hd, ihl hl, ihr hr]
      simp

theorem storedAtLevelB_mem_vals :
    ∀ (t : Tree) (k : Nat) (x : Int),
      storedAtLevelB t x k = true → x ∈ vals t := by
  intro t
  induction t with
  | nil => intro k x h; simp [storedAtLevelB] at h
  | node d l r ihl ihr =>
      intro k x h
      match k with
      | 0 => simp [storedAtLevelB] at h
      | 1 =>
          simp only [storedAtLevelB, decide_eq_true_eq] at h
          simp [vals_node, h]
      | k + 2 =>
          simp only [storedAtLevelB, Bool.or_eq_true] at h
          rcases h with h | h
          · simp [vals_node, ihl (k + 1) x h]
          · simp [vals_node, ihr (k + 1) x h]

theorem depth_stored :
    ∀ (t : Tree) (k : Nat) (x : Int), BST t →
      storedAtLevelB t x k = true → depth t x = k := by
  intro t
  induction t with
  | nil => intro k x _ h; simp [storedAtLevelB] at h
  | node d l r ihl ihr =>
      intro k x hb h
      rw [BST_node] at hb
      obtain ⟨hl, hr, bl, br⟩ := hb
      rw [forall_vals_lt] at hl
      rw [forall_vals_gt] at hr
      match k with
      | 0 => simp [storedAtLevelB] at h
      | 1 =>
          simp only [storedAtLevelB, decide_eq_true_eq] at h
          rw [depth_node, if_pos h.symm]
      | k + 2 =>
          simp only [storedAtLevelB, Bool.or_eq_true] at h
          rcases h with h | h
          · have hm : x ∈ vals l := storedAtLevelB_mem_vals l (k + 1) x h
            have hx : x < d.2 := hl x hm
            have hdl : depth l x = k + 1 := ihl (k + 1) x bl h
            rw [depth_node, if_neg (by omega : ¬ x = d.2), hdl]
            simp
          · have hm : x ∈ vals r := storedAtLevelB_mem_vals r (k + 1) x h
            have hx : d.2 < x := hr x hm
            have hnl : x ∉ vals l := fun hc => absurd (hl x hc) (by omega)
            have hdl : depth l x = 0 := depth_not_mem l x hnl
            have hdr : depth r x = k + 1 := ihr (k + 1) x br h
            rw [depth_node, if_neg (by omega : ¬ x = d.2), hdl, hdr]
            simp

/- Facts about array slots and sequential writes. -/

theorem getD_set_ne (buf : Buffer) (i j : Nat) (a : Option Elem)
    (h : i ≠ j) :
    (buf.set i a).getD j none = buf.getD j none := by
  rw [List.getD_eq_getElem?_getD, List.getD_eq_getElem?_getD,
    List.getElem?_set_ne h]

theorem getD_set_self (buf : Buffer) (i : Nat) (a : Option Elem)
    (h : i < buf.length) :
    (buf.set i a).getD i none = a := by
  rw [List.getD_eq_getElem?_getD, List.getElem?_set_eq_of_lt a h]
  rfl

theorem writeSeq_length :
    ∀ (l : List (Option Elem)) (buf : Buffer) (i : Nat),
      (writeSeq buf i l).length = buf.length := by
  intro l
  induction l with
  | nil => intro buf i; rfl
  | cons a rest ih =>
      intro buf i
      rw [writeSeq, ih, List.length_set]

theorem writeSeq_getD_lt :
    ∀ (l : List (Option Elem)) (buf : Buffer) (i j : Nat), j < i →
      (writeSeq buf i l).getD j none = buf.getD j none := by
  intro l
  induction l with
  | nil => intro buf i j _; rfl
  | cons a rest ih =>
      intro buf i j h
      rw [writeSeq, ih _ _ _ (by omega), getD_set_ne _ _ _ _ (by omega)]

theorem writeSeq_getD_ge :
    ∀ (l : List (Option Elem)) (buf : Buffer) (i j : Nat),
      i + l.length ≤ j →
      (writeSeq buf i l).getD j none = buf.getD j none := by
  intro l
  induction l with
  | nil => intro buf i j _; rfl
  | cons a rest ih =>
      intro buf i j h
      simp only [List.length_cons] at h
      rw [writeSeq, ih _ _ _ (by omega), getD_set_ne _ _ _ _ (by omega)]

theorem writeSeq_getD_in :
    ∀ (l : List (Option Elem)) (buf : Buffer) (i j : Nat), j < l.length →
      i + l.length ≤ buf.length →
      (writeSeq buf i l).getD (i + j) none = l.getD j none := by
  intro l
  induction l with
  | nil => intro buf i j h _; simp at h
  | cons a rest ih =>
      intro buf i j hj hlen
      simp only [List.length_cons] at hj hlen
      match j with
      | 0 =>
          have h0 : i + 0 = i := rfl
          rw [writeSeq, h0, writeSeq_getD_lt rest _ _ _ (by omega),
            getD_set_self _ _ _ (by omega), List.getD_cons_zero]
      | j + 1 =>
          have harith : i + (j + 1) = (i + 1) + j := by omega
          rw [writeSeq, harith,
            ih (buf.set i a) (i + 1) j (by omega)
              (by rw [List.length_set]; omega),
            List.getD_cons_succ]

theorem writeSeq_append :
    ∀ (l1 l2 : List (Option Elem)) (buf : Buffer) (i : Nat),
      writeSeq buf i (l1 ++ l2) =
        writeSeq (writeSeq buf i l1) (i + l1.length) l2 := by
  intro l1
  induction l1 with
  | nil => intro l2 buf i; rfl
  | cons a rest ih =>
      intro l2 buf i
      show writeSeq (buf.set i a) (i + 1) (rest ++ l2) = _
      rw [ih]
      show _ = writeSeq (writeSeq (buf.set i a) (i + 1) rest)
        (i + (a :: rest).length) l2
      congr 1
      simp only [List.length_cons]
      omega

theorem emptyBuffer_length : emptyBuffer.length = 100 := by
  simp [emptyBuffer]

theorem emptyBuffer_getD (j : Nat) : emptyBuffer.getD j none = none := by
  rw [emptyBuffer, List.getD_eq_getElem?_getD, List.getElem?_replicate]
  split <;> rfl

/- Characterization of inorderToArray and the surrounding helpers. -/

theorem inorderO_toO :
    ∀ t : Tree, inorderO t.toO = (inorder t).map some := by
  intro t
  induction t with
  | nil => rfl
  | node d l r ihl ihr => simp [Tree.toO, inorderO, inorder, ihl, ihr]

theorem destroyFrees_stripO : ∀ u : TreeO, destroyFrees (stripO u) = [] := by
  intro u
  induction u with
  | nil => rfl
  | node d l r ihl ihr => simp [stripO, destroyFrees, ihl, ihr]

theorem inorderToArray_eq :
    ∀ (tO : TreeO) (buf : Buffer) (i : Nat),
      inorderToArray tO buf i =
        (writeSeq buf i (inorderO tO), i + (inorderO tO).length,
          stripO tO) := by
  intro tO
  induction tO with
  | nil => intro buf i; rfl
  | node d l r ihl ihr =>
      intro buf i
      simp only [inorderToArray, ihl, ihr, inorderO, stripO,
        writeSeq_append, List.length_append, List.length_cons,
        Prod.mk.injEq]
      exact ⟨rfl, by omega, trivial⟩

/- Characterization of the scan loop of arrayToBSTree. -/

theorem scanHighAux_spec :
    ∀ (fuel : Nat) (source : Buffer) (h : Nat), h + fuel = 100 →
      h ≤ scanHighAux fuel source h ∧
      scanHighAux fuel source h ≤ 100 ∧
      (∀ j, h ≤ j → j < scanHighAux fuel source h →
        (source.getD j none).isSome = true) ∧
      (scanHighAux fuel source h = 100 ∨
        source.getD (scanHighAux fuel source h) none = none) := by
  intro fuel
  induction fuel with
  | zero =>
      intro source h hh
      simp only [scanHighAux]
      exact ⟨le_rfl, by omega, fun j h1 h2 => absurd h2 (by omega),
        Or.inl (by omega)⟩
  | succ fuel ih =>
      intro source h hh
      by_cases hc : h < 100 ∧ (source.getD h none).isSome = true
      · rw [scanHighAux, if_pos hc]
        obtain ⟨g1, g2, g3, g4⟩ := ih source (h + 1) (by omega)
        refine ⟨by omega, g2, ?_, g4⟩
        intro j hj1 hj2
        rcases Nat.eq_or_lt_of_le hj1 with heq | hj1
        · exact heq ▸ hc.2
        · exact g3 j (by omega) hj2
      · rw [scanHighAux, if_neg hc]
        push_neg at hc
        refine ⟨le_rfl, by omega, fun j h1 h2 => absurd h2 (by omega), ?_⟩
        by_cases h100 : h = 100
        · exact Or.inl h100
        · right
          have hns := hc (by omega)
          cases hx : source.getD h none with
          | none => rfl
          | some v => rw [hx] at hns; simp at hns

theorem scanHigh_spec (source : Buffer) :
    10 ≤ scanHigh source 10 ∧
    scanHigh source 10 ≤ 100 ∧
    (∀ j, 10 ≤ j → j < scanHigh source 10 →
      (source.getD j none).isSome = true) ∧
    (scanHigh source 10 = 100 ∨
      source.getD (scanHigh source 10) none = none) :=
  scanHighAux_spec 90 source 10 rfl

/- Facts about the bisection order and shape. -/

theorem bisectSeq_nil : bisectSeq ([] : List Elem) = [] := by
  rw [bisectSeq]
  simp

theorem bisectSeq_eq (l : List Elem) (h : l ≠ []) :
    bisectSeq l =
      l.getD ((l.length - 1) / 2) (0, 0) ::
        (bisectSeq (l.take ((l.length - 1) / 2)) ++
          bisectSeq (l.drop ((l.length - 1) / 2 + 1))) := by
  rw [bisectSeq]
  simp [h]

theorem bisectTree_nil : bisectTree ([] : List Elem) = Tree.nil := by
  rw [bisectTree]
  simp

theorem bisectTree_eq (l : List Elem) (h : l ≠ []) :
    bisectTree l =
      Tree.node (l.getD ((l.length - 1) / 2) (0, 0))
        (bisectTree (l.take ((l.length - 1) / 2)))
        (bisectTree (l.drop ((l.length - 1) / 2 + 1))) := by
  rw [bisectTree]
  simp [h]

theorem take_getD (l : List Elem) (m j : Nat) (hj : j < m)
    (hl : j < l.length) :
    (l.take m).getD j (0, 0) = l.getD j (0, 0) := by
  rw [List.getD_eq_getElem _ _ (by simp only [List.length_take]; omega),
    List.getD_eq_getElem _ _ hl]
  exact List.getElem_take l

theorem drop_getD (l : List Elem) (m j : Nat) (h : m + j < l.length) :
    (l.drop m).getD j (0, 0) = l.getD (m + j) (0, 0) := by
  rw [List.getD_eq_getElem _ _ (by simp only [List.length_drop]; omega),
    List.getD_eq_getElem _ _ h]
  exact List.getElem_drop l

theorem bisect_split (l : List Elem) (h : l ≠ []) :
    l.take ((l.length - 1) / 2) ++
      l.getD ((l.length - 1) / 2) (0, 0) ::
        l.drop ((l.length - 1) / 2 + 1) = l := by
  have hlen : 0 < l.length := List.length_pos.mpr h
  have hm : (l.length - 1) / 2 < l.length := by omega
  rw [List.getD_eq_getElem _ _ hm, List.getElem_cons_drop l _ hm,
    List.take_append_drop]

theorem bisectSeq_perm_aux :
    ∀ (n : Nat) (l : List Elem), l.length ≤ n → (bisectSeq l).Perm l := by
  intro n
  induction n with
  | zero =>
      intro l hl
      have h0 : l = [] := List.length_eq_zero.mp (by omega)
      subst h0
      rw [bisectSeq_nil]
  | succ n ih =>
      intro l hl
      by_cases h : l = []
      · subst h
        rw [bisectSeq_nil]
      · have hlen : 0 < l.length := List.length_pos.mpr h
        have htm : (l.take ((l.length - 1) / 2)).length =
            (l.length - 1) / 2 := by
          simp only [List.length_take]
          omega
        have h1 : (bisectSeq (l.take ((l.length - 1) / 2))).Perm
            (l.take ((l.length - 1) / 2)) := by
          refine ih _ ?_
          rw [htm]
          omega
        have h2 : (bisectSeq (l.drop ((l.length - 1) / 2 + 1))).Perm
            (l.drop ((l.length - 1) / 2 + 1)) := by
          refine ih _ ?_
          simp only [List.length_drop]
          omega
        have hp : (l.getD ((l.length - 1) / 2) (0, 0) ::
            (bisectSeq (l.take ((l.length - 1) / 2)) ++
              bisectSeq (l.drop ((l.length - 1) / 2 + 1)))).Perm
            (l.take ((l.length - 1) / 2) ++
              l.getD ((l.length - 1) / 2) (0, 0) ::
                l.drop ((l.length - 1) / 2 + 1)) :=
          (List.Perm.cons _ (List.Perm.append h1 h2)).trans
            List.perm_middle.symm
        rw [bisectSeq_eq l h]
        refine hp.trans ?_
        rw [bisect_split l h]

theorem bisectSeq_perm (l : List Elem) : (bisectSeq l).Perm l :=
  bisectSeq_perm_aux l.length l le_rfl

theorem insertAll_left (d : Elem) (R : Tree) :
    ∀ (s : List Elem) (L : Tree), (∀ x ∈ s, x.2 < d.2) →
      insertAll (.node d L R) s = .node d (insertAll L s) R := by
  intro s
  induction s with
  | nil => intro L _; rfl
  | cons a rest ih =>
      intro L h
      have ha : a.2 < d.2 := h a (List.mem_cons_self _ _)
      rw [insertAll_cons, insertItem_lt d L R a ha]
      exact ih (insertItem L a).1 fun x hx => h x (List.mem_cons_of_mem _ hx)

theorem insertAll_right (d : Elem) (L : Tree) :
    ∀ (s : List Elem) (R : Tree), (∀ x ∈ s, d.2 < x.2) →
      insertAll (.node d L R) s = .node d L (insertAll R s) := by
  intro s
  induction s with
  | nil => intro R _; rfl
  | cons a rest ih =>
      intro R h
      have ha : d.2 < a.2 := h a (List.mem_cons_self _ _)
      rw [insertAll_cons, insertItem_gt d L R a ha]
      exact ih (insertItem R a).1 fun x hx => h x (List.mem_cons_of_mem _ hx)

/- The tree built by the bisection insertions of a sorted segment. -/

theorem sorted_split_facts (l : List Elem) (h : l ≠ [])
    (hs : (l.map Prod.snd).Pairwise (· < ·)) :
    ((l.take ((l.length - 1) / 2)).map Prod.snd).Pairwise (· < ·) ∧
    ((l.drop ((l.length - 1) / 2 + 1)).map Prod.snd).Pairwise (· < ·) ∧
    (∀ x ∈ l.take ((l.length - 1) / 2),
      x.2 < (l.getD ((l.length - 1) / 2) (0, 0)).2) ∧
    (∀ x ∈ l.drop ((l.length - 1) / 2 + 1),
      (l.getD ((l.length - 1) / 2) (0, 0)).2 < x.2) := by
  rw [← bisect_split l h] at hs
  rw [List.map_append, List.map_cons, List.pairwise_append,
    List.pairwise_cons] at hs
  obtain ⟨p1, ⟨hgd, p2⟩, hcross⟩ := hs
  refine ⟨p1, p2, ?_, ?_⟩
  · intro x hx
    exact hcross x.2 (List.mem_map_of_mem _ hx) _ (List.mem_cons_self _ _)
  · intro x hx
    exact hgd x.2 (List.mem_map_of_mem _ hx)

theorem nodup_split_facts (l : List Elem) (h : l ≠ [])
    (hn : (l.map Prod.snd).Nodup) :
    ((l.take ((l.length - 1) / 2)).map Prod.snd).Nodup ∧
    ((l.drop ((l.length - 1) / 2 + 1)).map Prod.snd).Nodup ∧
    (∀ x ∈ l.take ((l.length - 1) / 2),
      x.2 ≠ (l.getD ((l.length - 1) / 2) (0, 0)).2) ∧
    (∀ x ∈ l.drop ((l.length - 1) / 2 + 1),
      x.2 ≠ (l.getD ((l.length - 1) / 2) (0, 0)).2) ∧
    (∀ x ∈ l.drop ((l.length - 1) / 2 + 1),
      x.2 ∉ (l.take ((l.length - 1) / 2)).map Prod.snd) := by
  rw [← bisect_split l h] at hn
  rw [List.map_append, List.map_cons, List.nodup_append] at hn
  obtain ⟨n1, n2, hdisj⟩ := hn
  rw [List.nodup_cons] at n2
  obtain ⟨hni, n2⟩ := n2
  refine ⟨n1, n2, ?_, ?_, ?_⟩
  · intro x hx heq
    exact hdisj (List.mem_map_of_mem _ hx)
      (by rw [heq]; exact List.mem_cons_self _ _)
  · intro x hx heq
    exact hni (by rw [← heq]; exact List.mem_map_of_mem _ hx)
  · intro x hx hmem
    exact hdisj hmem (List.mem_cons_of_mem _ (List.mem_map_of_mem _ hx))

theorem insertAll_bisectSeq_aux :
    ∀ (n : Nat) (l : List Elem), l.length ≤ n →
      (l.map Prod.snd).Pairwise (· < ·) →
      insertAll Tree.nil (bisectSeq l) = bisectTree l := by
  intro n
  induction n with
  | zero =>
      intro l hl _
      have h0 : l = [] := List.length_eq_zero.mp (by omega)
      subst h0
      rw [bisectSeq_nil, bisectTree_nil]
      rfl
  | succ n ih =>
      intro l hl hs
      by_cases h : l = []
      · subst h
        rw [bisectSeq_nil, bisectTree_nil]
        rfl
      · obtain ⟨p1, p2, hlt, hgt⟩ := sorted_split_facts l h hs
        have hlen : 0 < l.length := List.length_pos.mpr h
        have htm : (l.take ((l.length - 1) / 2)).length =
            (l.length - 1) / 2 := by
          simp only [List.length_take]
          omega
        have hltSeq : ∀ x ∈ bisectSeq (l.take ((l.length - 1) / 2)),
            x.2 < (l.getD ((l.length - 1) / 2) (0, 0)).2 :=
          fun x hx => hlt x ((bisectSeq_perm _).mem_iff.mp hx)
        have hgtSeq : ∀ x ∈ bisectSeq (l.drop ((l.length - 1) / 2 + 1)),
            (l.getD ((l.length - 1) / 2) (0, 0)).2 < x.2 :=
          fun x hx => hgt x ((bisectSeq_perm _).mem_iff.mp hx)
        have key : insertAll Tree.nil (bisectSeq l) =
            insertAll (Tree.node (l.getD ((l.length - 1) / 2) (0, 0))
                Tree.nil Tree.nil)
              (bisectSeq (l.take ((l.length - 1) / 2)) ++
                bisectSeq (l.drop ((l.length - 1) / 2 + 1))) := by
          rw [bisectSeq_eq l h]
          rfl
        rw [key, insertAll_append, insertAll_left _ _ _ _ hltSeq,
          insertAll_right _ _ _ _ hgtSeq,
          ih _ (by rw [htm]; omega) p1,
          ih _ (by simp only [List.length_drop]; omega) p2,
          bisectTree_eq l h]

theorem insertAll_bisectSeq (l : List Elem)
    (hs : (l.map Prod.snd).Pairwise (· < ·)) :
    insertAll Tree.nil (bisectSeq l) = bisectTree l :=
  insertAll_bisectSeq_aux l.length l le_rfl hs

theorem bisectTree_inorder_aux :
    ∀ (n : Nat) (l : List Elem), l.length ≤ n →
      inorder (bisectTree l) = l := by
  intro n
  induction n with
  | zero =>
      intro l hl
      have h0 : l = [] := List.length_eq_zero.mp (by omega)
      subst h0
      rw [bisectTree_nil]
      rfl
  | succ n ih =>
      intro l hl
      by_cases h : l = []
      · subst h
        rw [bisectTree_nil]
        rfl
      · have hlen : 0 < l.length := List.length_pos.mpr h
        have htm : (l.take ((l.length - 1) / 2)).length =
            (l.length - 1) / 2 := by
          simp only [List.length_take]
          omega
        rw [bisectTree_eq l h, inorder_node,
          ih _ (by rw [htm]; omega),
          ih _ (by simp only [List.length_drop]; omega),
          bisect_split l h]

theorem bisectTree_inorder (l : List Elem) : inorder (bisectTree l) = l :=
  bisectTree_inorder_aux l.length l le_rfl

theorem bisectTree_height :
    ∀ (h : Nat) (l : List Elem), l.length < 2 ^ h →
      height (bisectTree l) ≤ h := by
  intro h
  induction h with
  | zero =>
      intro l hl
      have h0 : l = [] := List.length_eq_zero.mp (by simpa using hl)
      subst h0
      rw [bisectTree_nil]
      exact le_rfl
  | succ h ih =>
      intro l hl
      by_cases he : l = []
      · subst he
        rw [bisectTree_nil]
        exact Nat.zero_le _
      · have hlen : 0 < l.length := List.length_pos.mpr he
        have hpow : (2 : Nat) ^ (h + 1) = 2 ^ h * 2 := pow_succ 2 h
        have htm : (l.take ((l.length - 1) / 2)).length =
            (l.length - 1) / 2 := by
          simp only [List.length_take]
          omega
        have h1 : (l.take ((l.length - 1) / 2)).length < 2 ^ h := by
          rw [htm]
          omega
        have h2 : (l.drop ((l.length - 1) / 2 + 1)).length < 2 ^ h := by
          simp only [List.length_drop]
          omega
        have g1 := ih _ h1
        have g2 := ih _ h2
        rw [bisectTree_eq l he]
        simp only [height]
        omega

/- Behaviour of bisectBuild. -/

theorem bisectBuild_empty (fuel : Nat) (source : Buffer) (t : Tree)
    (low : Nat) (h1 : 1 ≤ low) :
    bisectBuild fuel source t low (low - 1) = (source, t) := by
  cases fuel with
  | zero => rfl
  | succ fuel =>
      simp only [bisectBuild]
      rw [if_neg (by omega : ¬ low ≤ (low + (low - 1)) / 2)]

theorem bisectBuild_spec :
    ∀ (fuel : Nat) (l : List Elem) (source : Buffer) (t : Tree) (low : Nat),
      l.length ≤ fuel →
      source.length = 100 →
      1 ≤ low →
      low + l.length ≤ 100 →
      (∀ j, j < l.length →
        source.getD (low + j) none = some (l.getD j (0, 0))) →
      (l.map Prod.snd).Nodup →
      (∀ x ∈ l, x.2 ∉ vals t) →
      (bisectBuild fuel source t low (low + l.length - 1)).2 =
          insertAll t (bisectSeq l) ∧
        (∀ j, (bisectBuild fuel source t low (low + l.length - 1)).1.getD j
            none =
          if low ≤ j ∧ j < low + l.length then none
          else source.getD j none) ∧
        (bisectBuild fuel source t low (low + l.length - 1)).1.length =
          100 := by
  intro fuel
  induction fuel with
  | zero =>
      intro l source t low hfuel hlen hlow hcap hslots hnd hdisj
      have hl0 : l = [] := List.length_eq_zero.mp (by omega)
      subst hl0
      refine ⟨by rw [bisectSeq_nil]; rfl, ?_, hlen⟩
      intro j
      have hno : ¬ (low ≤ j ∧ j < low + ([] : List Elem).length) := by
        simp only [List.length_nil]
        omega
      rw [if_neg hno]
      rfl
  | succ fuel ih =>
      intro l source t low hfuel hlen hlow hcap hslots hnd hdisj
      by_cases hl0 : l = []
      · subst hl0
        have hh : low + ([] : List Elem).length - 1 = low - 1 := by
          simp only [List.length_nil]
          omega
        rw [hh, bisectBuild_empty (fuel + 1) source t low hlow]
        refine ⟨by rw [bisectSeq_nil]; rfl, ?_, hlen⟩
        intro j
        have hno : ¬ (low ≤ j ∧ j < low + ([] : List Elem).length) := by
          simp only [List.length_nil]
          omega
        rw [if_neg hno]
      · have hn : 0 < l.length := List.length_pos.mpr hl0
        have hmid : (low + (low + l.length - 1)) / 2 =
            low + (l.length - 1) / 2 := by omega
        have hmlt : (l.length - 1) / 2 < l.length := by omega
        have htm : (l.take ((l.length - 1) / 2)).length =
            (l.length - 1) / 2 := by
          simp only [List.length_take]
          omega
        have htd : (l.drop ((l.length - 1) / 2 + 1)).length =
            l.length - (l.length - 1) / 2 - 1 := by
          simp only [List.length_drop]
          omega
        have hsm := hslots ((l.length - 1) / 2) hmlt
        have hmemmid : l.getD ((l.length - 1) / 2) (0, 0) ∈ l := by
          rw [List.getD_eq_getElem _ _ hmlt]
          exact List.getElem_mem _
        have hsucc :
            (insertItem t (l.getD ((l.length - 1) / 2) (0, 0))).2 = true :=
          insertItem_success t _ (hdisj _ hmemmid)
        obtain ⟨ndA, ndB, hneA, hneB, hBnotA⟩ := nodup_split_facts l hl0 hnd
        have ihL := ih (l.take ((l.length - 1) / 2))
          (source.set (low + (l.length - 1) / 2) none)
          (insertItem t (l.getD ((l.length - 1) / 2) (0, 0))).1
          low
          (by rw [htm]; omega)
          (by rw [List.length_set]; exact hlen)
          hlow
          (by rw [htm]; omega)
          (by
            intro j hj
            rw [htm] at hj
            rw [getD_set_ne _ _ _ _ (by omega),
              take_getD l _ j hj (by omega)]
            exact hslots j (by omega))
          ndA
          (by
            intro x hx hmem
            rw [mem_vals_insertItem] at hmem
            rcases hmem with hmem | hmem
            · exact hdisj x (List.mem_of_mem_take hx) hmem
            · exact hneA x hx hmem)
        rw [htm] at ihL
        obtain ⟨gL1, gL2, gL3⟩ := ihL
        have ihR := ih (l.drop ((l.length - 1) / 2 + 1))
          (bisectBuild fuel (source.set (low + (l.length - 1) / 2) none)
            (insertItem t (l.getD ((l.length - 1) / 2) (0, 0))).1
            low (low + (l.length - 1) / 2 - 1)).1
          (bisectBuild fuel (source.set (low + (l.length - 1) / 2) none)
            (insertItem t (l.getD ((l.length - 1) / 2) (0, 0))).1
            low (low + (l.length - 1) / 2 - 1)).2
          (low + (l.length - 1) / 2 + 1)
          (by rw [htd]; omega)
          gL3
          (by omega)
          (by rw [htd]; omega)
          (by
            intro j hj
            rw [htd] at hj
            rw [gL2 (low + (l.length - 1) / 2 + 1 + j), if_neg (by omega),
              getD_set_ne _ _ _ _ (by omega),
              drop_getD l _ j (by omega)]
            have hface := hslots ((l.length - 1) / 2 + 1 + j) (by omega)
            rw [show low + ((l.length - 1) / 2 + 1 + j) =
              low + (l.length - 1) / 2 + 1 + j from by omega] at hface
            exact hface)
          ndB
          (by
            intro x hx hmem
            rw [gL1, mem_vals_insertAll] at hmem
            rcases hmem with hmem | hmem
            · rw [mem_vals_insertItem] at hmem
              rcases hmem with hmem | hmem
              · exact hdisj x (List.mem_of_mem_drop hx) hmem
              · exact hneB x hx hmem
            · have hmem2 : x.2 ∈ (l.take ((l.length - 1) / 2)).map
                  Prod.snd := by
                rcases List.mem_map.mp hmem with ⟨y, hy, hxy⟩
                exact hxy ▸ List.mem_map_of_mem _
                  ((bisectSeq_perm _).mem_iff.mp hy)
              exact hBnotA x hx hmem2)
        rw [htd] at ihR
        rw [show low + (l.length - 1) / 2 + 1 +
            (l.length - (l.length - 1) / 2 - 1) - 1 =
            low + l.length - 1 from by omega] at ihR
        obtain ⟨gR1, gR2, gR3⟩ := ihR
        simp only [bisectBuild, hmid, insert]
        rw [if_pos (by omega : low ≤ low + (l.length - 1) / 2), hsm]
        simp only [Option.getD_some]
        rw [if_pos hsucc]
        refine ⟨?_, ?_, gR3⟩
        · rw [gR1, gL1, ← insertAll_append, bisectSeq_eq l hl0]
          exact (insertAll_cons t _ _).symm
        · intro j
          rw [gR2 j]
          by_cases c1 : low + (l.length - 1) / 2 + 1 ≤ j ∧
              j < low + (l.length - 1) / 2 + 1 +
                (l.length - (l.length - 1) / 2 - 1)
          · rw [if_pos c1, if_pos (by omega)]
          · rw [if_neg c1, gL2 j]
            by_cases c2 : low ≤ j ∧ j < low + (l.length - 1) / 2
            · rw [if_pos c2, if_pos (by omega)]
            · rw [if_neg c2]
              by_cases c3 : j = low + (l.length - 1) / 2
              · subst c3
                rw [getD_set_self _ _ _ (by omega), if_pos (by omega)]
              · rw [getD_set_ne _ _ _ _ (by omega), if_neg (by omega)]

/- The run of occupied slots read by arrayToBSTree. -/

theorem runSlots_length (source : Buffer) :
    (runSlots source).length = scanHigh source 10 - 10 := by
  simp [runSlots]

theorem runSlots_getD (source : Buffer) (j : Nat)
    (hj : j < scanHigh source 10 - 10) :
    (runSlots source).getD j (0, 0) =
      (source.getD (10 + j) none).getD (0, 0) := by
  simp only [runSlots]
  rw [List.getD_eq_getElem _ _
      (by rw [List.length_map, List.length_range]; omega),
    List.getElem_map, List.getElem_range]

theorem runSlots_slot (source : Buffer) (j : Nat)
    (hj : j < scanHigh source 10 - 10) :
    source.getD (10 + j) none =
      some ((runSlots source).getD j (0, 0)) := by
  have hs := (scanHigh_spec source).2.2.1 (10 + j) (by omega) (by omega)
  rw [runSlots_getD source j hj]
  cases hx : source.getD (10 + j) none with
  | none => rw [hx] at hs; simp at hs
  | some v => rfl

theorem vals_destroyTree (t : Tree) : vals (destroyTree t) = [] := rfl

theorem arrayToBSTree_spec (source : Buffer) (t : Tree)
    (hlen : source.length = 100)
    (hnd : ((runSlots source).map Prod.snd).Nodup) :
    (arrayToBSTree source t).2 =
        insertAll Tree.nil (bisectSeq (runSlots source)) ∧
      ∀ j, (arrayToBSTree source t).1.getD j none =
        if 10 ≤ j ∧ j < scanHigh source 10 then none
        else source.getD j none := by
  obtain ⟨s1, s2, s3, s4⟩ := scanHigh_spec source
  have hrl := runSlots_length source
  by_cases hg : (source.getD 10 none).isSome = true
  · have hgt : 10 < scanHigh source 10 := by
      by_contra hc
      have h10 : scanHigh source 10 = 10 := by omega
      rcases s4 with h100 | hnone
      · omega
      · rw [h10] at hnone
        rw [hnone] at hg
        simp at hg
    have e1 : scanHigh source 10 - 1 + 1 - 10 = (runSlots source).length := by
      omega
    have e2 : scanHigh source 10 - 1 = 10 + (runSlots source).length - 1 := by
      omega
    have hspec := bisectBuild_spec (runSlots source).length
      (runSlots source) source Tree.nil 10 le_rfl hlen (by omega)
      (by omega)
      (by
        intro j hj
        rw [hrl] at hj
        exact runSlots_slot source j hj)
      hnd
      (by
        intro x _ hm
        rw [show vals Tree.nil = [] from rfl] at hm
        exact absurd hm (List.not_mem_nil _))
    obtain ⟨g1, g2, _⟩ := hspec
    simp only [arrayToBSTree, destroyTree]
    rw [if_pos hg, e1, e2]
    refine ⟨g1, ?_⟩
    intro j
    rw [g2 j]
    by_cases c : 10 ≤ j ∧ j < scanHigh source 10
    · rw [if_pos (show 10 ≤ j ∧ j < 10 + (runSlots source).length by
        omega), if_pos c]
    · rw [if_neg (show ¬ (10 ≤ j ∧ j < 10 + (runSlots source).length) by
        omega), if_neg c]
  · have h10 : scanHigh source 10 = 10 := by
      by_contra hc
      exact hg (s3 10 le_rfl (by omega))
    have hrun : runSlots source = [] := by
      rw [← List.length_eq_zero, hrl, h10]
    simp only [arrayToBSTree, destroyTree]
    rw [if_neg hg, hrun, bisectSeq_nil]
    refine ⟨rfl, ?_⟩
    intro j
    rw [if_neg (by omega : ¬ (10 ≤ j ∧ j < scanHigh source 10))]

/- The array produced by bstreeToArray from the all-null array. -/

theorem map_some_getD (l : List Elem) (j : Nat) (hj : j < l.length) :
    (l.map some).getD j none = some (l.getD j (0, 0)) := by
  rw [List.getD_eq_getElem _ _ (by rw [List.length_map]; omega),
    List.getD_eq_getElem _ _ hj, List.getElem_map]

theorem bstreeToArray_eq (t : Tree) :
    bstreeToArray t emptyBuffer =
      (writeSeq emptyBuffer 10 ((inorder t).map some), Tree.nil,
        destroyFrees (stripO t.toO)) := by
  simp only [bstreeToArray, inorderToArray_eq, inorderO_toO, destroyTree]

theorem exported_getD_in (t : Tree) (j : Nat) (hj : j < count t)
    (hc : count t ≤ 90) :
    (bstreeToArray t emptyBuffer).1.getD (10 + j) none =
      some ((inorder t).getD j (0, 0)) := by
  have hcnt : (inorder t).length = count t := rfl
  rw [bstreeToArray_eq]
  show (writeSeq emptyBuffer 10 ((inorder t).map some)).getD (10 + j)
    none = _
  rw [writeSeq_getD_in _ _ _ _ (by rw [List.length_map]; omega)
    (by rw [List.length_map, emptyBuffer_length]; omega)]
  exact map_some_getD (inorder t) j hj

theorem exported_getD_out (t : Tree) (j : Nat) (hc : count t ≤ 90)
    (hj : j < 10 ∨ 10 + count t ≤ j) :
    (bstreeToArray t emptyBuffer).1.getD j none = none := by
  have hcnt : (inorder t).length = count t := rfl
  rw [bstreeToArray_eq]
  show (writeSeq emptyBuffer 10 ((inorder t).map some)).getD j none = none
  rcases hj with hj | hj
  · rw [writeSeq_getD_lt _ _ _ _ hj, emptyBuffer_getD]
  · rw [writeSeq_getD_ge _ _ _ _ (by rw [List.length_map]; omega),
      emptyBuffer_getD]

theorem exported_length (t : Tree) :
    (bstreeToArray t emptyBuffer).1.length = 100 := by
  rw [bstreeToArray_eq]
  show (writeSeq emptyBuffer 10 ((inorder t).map some)).length = 100
  rw [writeSeq_length, emptyBuffer_length]

theorem exported_scanHigh (t : Tree) (hc : count t ≤ 90) :
    scanHigh (bstreeToArray t emptyBuffer).1 10 = 10 + count t := by
  obtain ⟨s1, s2, s3, s4⟩ := scanHigh_spec (bstreeToArray t emptyBuffer).1
  by_contra hne
  rcases Nat.lt_or_ge (scanHigh (bstreeToArray t emptyBuffer).1 10)
      (10 + count t) with hlt | hge
  · rcases s4 with h100 | hnone
    · omega
    · have hin := exported_getD_in t
        (scanHigh (bstreeToArray t emptyBuffer).1 10 - 10) (by omega) hc
      rw [show 10 + (scanHigh (bstreeToArray t emptyBuffer).1 10 - 10) =
        scanHigh (bstreeToArray t emptyBuffer).1 10 from by omega] at hin
      rw [hnone] at hin
      simp at hin
  · have hsome := s3 (10 + count t) (by omega) (by omega)
    have hnone := exported_getD_out t (10 + count t) hc (Or.inr le_rfl)
    rw [hnone] at hsome
    simp at hsome

theorem exported_runSlots (t : Tree) (hc : count t ≤ 90) :
    runSlots (bstreeToArray t emptyBuffer).1 = inorder t := by
  refine List.ext_getElem ?_ ?_
  · rw [runSlots_length, exported_scanHigh t hc]
    simp [count]
  · intro n h1 h2
    have hn : n < count t := by
      rw [runSlots_length, exported_scanHigh t hc] at h1
      omega
    rw [← List.getD_eq_getElem (runSlots (bstreeToArray t emptyBuffer).1)
        (0, 0) h1,
      runSlots_getD _ n (by rw [exported_scanHigh t hc]; omega),
      exported_getD_in t n hn hc, Option.getD_some,
      List.getD_eq_getElem (inorder t) (0, 0) h2]

/- Facts about compare. -/

theorem compare_refl : ∀ t : Tree, compare t t = true := by
  intro t
  induction t with
  | nil => rfl
  | node d l r ihl ihr => simp [compare, ihl, ihr]

theorem compare_symm : ∀ t1 t2 : Tree, compare t1 t2 = compare t2 t1 := by
  intro t1
  induction t1 with
  | nil => intro t2; cases t2 <;> rfl
  | node d l r ihl ihr =>
      intro t2
      cases t2 with
      | nil => rfl
      | node d2 l2 r2 =>
          have hd : (decide (d.1 = d2.1)) = (decide (d2.1 = d.1)) :=
            decide_eq_decide.mpr eq_comm
          simp [compare, ihl, ihr, hd]

theorem compare_count :
    ∀ t1 t2 : Tree, compare t1 t2 = true → count t1 = count t2 := by
  intro t1
  induction t1 with
  | nil =>
      intro t2 h
      cases t2 with
      | nil => rfl
      | node _ _ _ => simp [compare] at h
  | node d l r ihl ihr =>
      intro t2 h
      cases t2 with
      | nil => simp [compare] at h
      | node d2 l2 r2 =>
          simp only [compare, Bool.and_eq_true] at h
          obtain ⟨⟨_, h1⟩, h2⟩ := h
          have e1 := ihl l2 h1
          have e2 := ihr r2 h2
          simp only [count, inorder, List.length_append,
            List.length_cons] at e1 e2 ⊢
          omega

/- Claim theorems. -/

/-- Claim C1 (code bug).  The claim states that the equality operation
returns true iff the two trees have identical shape and the same
element value at every corresponding position.  The code at
bintree.cpp line 188 compares the NodeData pointers, lhs->data ==
rhs->data, not the pointed-to values, although the documentation of
operator== promises a comparison of content and its precondition
demands an equality operator on NodeData.  Two single node trees both
holding the value 5, in two distinct NodeData objects at addresses 0
and 1, agree in shape and in every value, yet compare reports them
unequal. -/
theorem compare_pointer_not_value :
    sameShapeVals (Tree.node (0, 5) Tree.nil Tree.nil)
        (Tree.node (1, 5) Tree.nil Tree.nil) = true ∧
      compare (Tree.node (0, 5) Tree.nil Tree.nil)
        (Tree.node (1, 5) Tree.nil Tree.nil) = false := by
  decide

/-- Claim C2 (code bug).  Copy construction duplicates every NodeData
object into a fresh allocation, producing a tree of identical shape
and values that shares no NodeData object with the source, exactly as
the claim demands; but the equals operation compares NodeData
pointers, so it reports the copy unequal to its source, contradicting
the claimed copy property for every non-empty tree.  Evaluated on the
single node tree holding value 5 at address 0, with the allocator
counter at 1. -/
theorem copy_not_reported_equal :
    copyTree (Tree.node (0, 5) Tree.nil Tree.nil) 1 =
        (Tree.node (1, 5) Tree.nil Tree.nil, 2) ∧
      sameShapeVals (copyTree (Tree.node (0, 5) Tree.nil Tree.nil) 1).1
        (Tree.node (0, 5) Tree.nil Tree.nil) = true ∧
      compare (copyTree (Tree.node (0, 5) Tree.nil Tree.nil) 1).1
        (Tree.node (0, 5) Tree.nil Tree.nil) = false := by
  decide

/-- Claim C4.  For every sequence of insertions starting from the
empty tree, the inorder traversal of the resulting tree lists its
values in strictly ascending order: the binary search tree ordering
and uniqueness invariants hold after every insert. -/
theorem insert_sequence_inorder_ascending (items : List Elem) :
    (vals (buildList items)).Pairwise (· < ·) :=
  (BST_iff_pairwise _).mp (BST_buildList items)

/-- Claim C5.  On a tree satisfying the search ordering invariant,
inserting an element whose value is already present returns failure
and leaves the tree, shape and content, exactly unchanged. -/
theorem insert_duplicate_rejected (t : Tree) (x : Elem) (hb : BST t)
    (hm : x.2 ∈ vals t) : insert t x = (t, false) :=
  insertItem_mem_fail t x hb hm

/-- Witness for claim C5 at a concrete tree and element. -/
theorem insert_duplicate_rejected_witness :
    BST (Tree.node (0, 5) Tree.nil Tree.nil) ∧
      (5 : Int) ∈ vals (Tree.node (0, 5) Tree.nil Tree.nil) ∧
      insert (Tree.node (0, 5) Tree.nil Tree.nil) (1, 5) =
        (Tree.node (0, 5) Tree.nil Tree.nil, false) :=
  ⟨by decide, by decide,
    insert_duplicate_rejected (Tree.node (0, 5) Tree.nil Tree.nil) (1, 5)
      (by decide) (by decide)⟩

/-- Claim C7.  For any history of insert calls and clearing operations
on a tree starting empty, retrieve succeeds exactly when an element of
equal value was passed to insert after the last clearing operation;
a returned element carries the searched value and is one of the
elements held by the tree.  The search is a pure function of the tree,
which models the const retrieval that never mutates it. -/
theorem retrieve_iff_inserted (ops : List Op) (x : Int) :
    ((retrieveItem (runOps ops) x).isSome = true ↔
        x ∈ (insertedSince ops).map Prod.snd) ∧
      ∀ d, retrieveItem (runOps ops) x = some d →
        d.2 = x ∧ d ∈ inorder (runOps ops) := by
  constructor
  · rw [runOps_eq_buildList, retrieveItem_isSome_iff _ _ (BST_buildList _),
      mem_vals_buildList]
  · exact fun d h => retrieveItem_some _ x d h

/-- Claim C8.  On a tree satisfying the search ordering invariant,
getDepth returns 1 for the value at the root, 0 for every value absent
from the tree, and k for a value stored at 1-based nesting level k. -/
theorem getDepth_spec (t : Tree) (hb : BST t) :
    (∀ d l r, t = Tree.node d l r → getDepth t d.2 = 1) ∧
      (∀ x, x ∉ vals t → getDepth t x = 0) ∧
      (∀ x k, storedAtLevelB t x k = true → getDepth t x = k) := by
  refine ⟨?_, ?_, ?_⟩
  · rintro d l r rfl
    show depth (Tree.node d l r) d.2 = 1
    rw [depth_node, if_pos rfl]
  · exact fun x hx => depth_not_mem t x hx
  · exact fun x k hk => depth_stored t k x hb hk

/-- Witness for claim C8 on a two node tree: root value 5 at depth 1,
absent value 9 at depth 0, left child value 3 at depth 2. -/
theorem getDepth_spec_witness :
    BST (Tree.node (0, 5) (Tree.node (1, 3) Tree.nil Tree.nil)
        Tree.nil) ∧
      getDepth (Tree.node (0, 5) (Tree.node (1, 3) Tree.nil Tree.nil)
        Tree.nil) 5 = 1 ∧
      getDepth (Tree.node (0, 5) (Tree.node (1, 3) Tree.nil Tree.nil)
        Tree.nil) 9 = 0 ∧
      getDepth (Tree.node (0, 5) (Tree.node (1, 3) Tree.nil Tree.nil)
        Tree.nil) 3 = 2 :=
  ⟨by decide,
    (getDepth_spec _ (by decide)).1 (0, 5)
      (Tree.node (1, 3) Tree.nil Tree.nil) Tree.nil rfl,
    (getDepth_spec _ (by decide)).2.1 9 (by decide),
    (getDepth_spec _ (by decide)).2.2 3 2 (by decide)⟩

/-- Claim C9.  The equality operation is reflexive and symmetric, two
empty trees are equal, and trees holding different numbers of elements
are never equal. -/
theorem compare_equiv_props (t1 t2 : Tree) :
    compare t1 t1 = true ∧ compare t1 t2 = compare t2 t1 ∧
      compare Tree.nil Tree.nil = true ∧
      (count t1 ≠ count t2 → compare t1 t2 = false) := by
  refine ⟨compare_refl t1, compare_symm t1 t2, rfl, ?_⟩
  intro hne
  cases h : compare t1 t2 with
  | false => rfl
  | true => exact absurd (compare_count t1 t2 h) hne

/-- Witness for claim C9: a one element tree and the empty tree differ
in size, and compare rejects them. -/
theorem compare_equiv_props_witness :
    count (Tree.node (0, 5) Tree.nil Tree.nil) ≠ count Tree.nil ∧
      compare (Tree.node (0, 5) Tree.nil Tree.nil) Tree.nil = false :=
  ⟨by decide,
    (compare_equiv_props (Tree.node (0, 5) Tree.nil Tree.nil)
      Tree.nil).2.2.2 (by decide)⟩

/-- Claim C6.  Exporting a tree that satisfies the search ordering
invariant and holds at most 90 elements into the all-null 100 slot
array leaves the tree empty and the array holding exactly the former
elements at the consecutive slots from index 10 on, in ascending value
order (the inorder sequence), with every other slot still null; the
destroy pass that follows the move deletes no NodeData object, so no
moved element is freed again. -/
theorem toArray_export_spec (t : Tree) (hb : BST t) (hc : count t ≤ 90) :
    (bstreeToArray t emptyBuffer).2.1 = Tree.nil ∧
      (bstreeToArray t emptyBuffer).2.2 = [] ∧
      (∀ j, j < count t →
        (bstreeToArray t emptyBuffer).1.getD (10 + j) none =
          some ((inorder t).getD j (0, 0))) ∧
      (∀ j, j < 10 ∨ 10 + count t ≤ j →
        (bstreeToArray t emptyBuffer).1.getD j none = none) ∧
      (vals t).Pairwise (· < ·) := by
  refine ⟨rfl, ?_, ?_, ?_, (BST_iff_pairwise t).mp hb⟩
  · rw [bstreeToArray_eq]
    exact destroyFrees_stripO _
  · exact fun j hj => exported_getD_in t j hj hc
  · exact fun j hj => exported_getD_out t j hc hj

/-- Witness for claim C6 on the one element tree holding value 5. -/
theorem toArray_export_spec_witness :
    BST (Tree.node (0, 5) Tree.nil Tree.nil) ∧
      count (Tree.node (0, 5) Tree.nil Tree.nil) ≤ 90 ∧
      (bstreeToArray (Tree.node (0, 5) Tree.nil Tree.nil)
          emptyBuffer).2.1 = Tree.nil ∧
      (bstreeToArray (Tree.node (0, 5) Tree.nil Tree.nil)
          emptyBuffer).2.2 = [] ∧
      (bstreeToArray (Tree.node (0, 5) Tree.nil Tree.nil)
          emptyBuffer).1.getD (10 + 0) none =
        some ((inorder (Tree.node (0, 5) Tree.nil Tree.nil)).getD 0
          (0, 0)) ∧
      (bstreeToArray (Tree.node (0, 5) Tree.nil Tree.nil)
          emptyBuffer).1.getD 11 none = none :=
  ⟨by decide, by decide,
    (toArray_export_spec _ (by decide) (by decide)).1,
    (toArray_export_spec _ (by decide) (by decide)).2.1,
    (toArray_export_spec _ (by decide) (by decide)).2.2.1 0 (by decide),
    (toArray_export_spec _ (by decide) (by decide)).2.2.2.1 11
      (Or.inr (by decide))⟩

/-- Claim C3.  For a tree that satisfies the search ordering invariant
and holds at most 90 elements, exporting it with bstreeToArray into
the all-null array and importing the result with arrayToBSTree yields
a tree with exactly the same elements, satisfying the search ordering
invariant, whose height is at most the ceiling of the base 2 logarithm
of n + 1 for n elements. -/
theorem toArray_fromArray_roundtrip (t : Tree) (hb : BST t)
    (hc : count t ≤ 90) :
    (∀ x : Elem, x ∈ inorder (roundTrip t) ↔ x ∈ inorder t) ∧
      BST (roundTrip t) ∧
      height (roundTrip t) ≤ Nat.clog 2 (count t + 1) := by
  have hnd : ((runSlots (bstreeToArray t emptyBuffer).1).map
      Prod.snd).Nodup := by
    rw [exported_runSlots t hc]
    exact ((BST_iff_pairwise t).mp hb).imp ne_of_lt
  obtain ⟨g1, _⟩ := arrayToBSTree_spec (bstreeToArray t emptyBuffer).1
    (bstreeToArray t emptyBuffer).2.1 (exported_length t) hnd
  have hrt : roundTrip t = bisectTree (inorder t) := by
    show (arrayToBSTree (bstreeToArray t emptyBuffer).1
      (bstreeToArray t emptyBuffer).2.1).2 = _
    rw [g1, exported_runSlots t hc]
    exact insertAll_bisectSeq _ ((BST_iff_pairwise t).mp hb)
  have hio : inorder (roundTrip t) = inorder t := by
    rw [hrt, bisectTree_inorder]
  refine ⟨fun x => by rw [hio], ?_, ?_⟩
  · rw [BST_iff_pairwise]
    show ((inorder (roundTrip t)).map Prod.snd).Pairwise (· < ·)
    rw [hio]
    exact (BST_iff_pairwise t).mp hb
  · rw [hrt]
    refine bisectTree_height _ _ ?_
    have hcl := Nat.le_pow_clog (by omega : 1 < 2) (count t + 1)
    have hcnt : (inorder t).length = count t := rfl
    omega

/-- Witness for claim C3 on the one element tree holding value 5. -/
theorem toArray_fromArray_roundtrip_witness :
    BST (Tree.node (0, 5) Tree.nil Tree.nil) ∧
      count (Tree.node (0, 5) Tree.nil Tree.nil) ≤ 90 ∧
      (((0, 5) : Elem) ∈
          inorder (roundTrip (Tree.node (0, 5) Tree.nil Tree.nil)) ↔
        ((0, 5) : Elem) ∈ inorder (Tree.node (0, 5) Tree.nil Tree.nil)) ∧
      BST (roundTrip (Tree.node (0, 5) Tree.nil Tree.nil)) ∧
      height (roundTrip (Tree.node (0, 5) Tree.nil Tree.nil)) ≤
        Nat.clog 2 (count (Tree.node (0, 5) Tree.nil Tree.nil) + 1) :=
  ⟨by decide, by decide,
    (toArray_fromArray_roundtrip _ (by decide) (by decide)).1 (0, 5),
    (toArray_fromArray_roundtrip _ (by decide) (by decide)).2.1,
    (toArray_fromArray_roundtrip _ (by decide) (by decide)).2.2⟩

/-- Claim C10 as stated fails: in the buffer cexBuf the contiguous run
at slots 10 to 13 holds the values 1, 2, 1, 3, but the import does not
insert every element of that run into the tree: the duplicate insert
at slot 12 fails, bisectBuild abandons the whole sub-segment of slots
12 and 13, and the run value 3 is missing from the resulting tree. -/
theorem arrayToBSTree_misses_run_element :
    (3 : Int) ∈ (runSlots cexBuf).map Prod.snd ∧
      (3 : Int) ∉ vals (arrayToBSTree cexBuf Tree.nil).2 := by
  decide

/-- Claim C10 amended: for a 100 slot buffer whose contiguous run of
occupied slots, starting at index 10 and ending before the first null
slot or index 100, carries pairwise distinct values, arrayToBSTree
first empties the tree and then inserts exactly the elements of that
run; if slot 10 is null the resulting tree is empty; the run slots are
nulled, and every other slot, in particular every slot before index 10
or after a gap, is left untouched. -/
theorem arrayToBSTree_distinct_run_spec (source : Buffer) (t : Tree)
    (hlen : source.length = 100)
    (hnd : ((runSlots source).map Prod.snd).Nodup) :
    (∀ x, x ∈ vals (arrayToBSTree source t).2 ↔
        x ∈ (runSlots source).map Prod.snd) ∧
      (∀ j, (arrayToBSTree source t).1.getD j none =
        if 10 ≤ j ∧ j < scanHigh source 10 then none
        else source.getD j none) ∧
      (source.getD 10 none = none →
        (arrayToBSTree source t).2 = Tree.nil) := by
  obtain ⟨g1, g2⟩ := arrayToBSTree_spec source t hlen hnd
  refine ⟨?_, g2, ?_⟩
  · intro x
    rw [g1, mem_vals_insertAll]
    constructor
    · rintro (hm | hm)
      · rw [show vals Tree.nil = [] from rfl] at hm
        exact absurd hm (List.not_mem_nil _)
      · rcases List.mem_map.mp hm with ⟨y, hy, hxy⟩
        exact hxy ▸ List.mem_map_of_mem _
          ((bisectSeq_perm _).mem_iff.mp hy)
    · intro hm
      right
      rcases List.mem_map.mp hm with ⟨y, hy, hxy⟩
      exact hxy ▸ List.mem_map_of_mem _
        ((bisectSeq_perm _).mem_iff.mpr hy)
  · intro h10
    rw [g1]
    have hrun : runSlots source = [] := by
      rw [← List.length_eq_zero, runSlots_length]
      obtain ⟨s1, s2, s3, s4⟩ := scanHigh_spec source
      by_contra hc
      have hsome := s3 10 le_rfl (by omega)
      rw [h10] at hsome
      simp at hsome
    rw [hrun, bisectSeq_nil]
    rfl

/-- Witness for the amended claim C10 on the buffer oneBuf, whose run
is the single element of value 7 at slot 10. -/
theorem arrayToBSTree_distinct_run_spec_witness :
    oneBuf.length = 100 ∧
      ((runSlots oneBuf).map Prod.snd).Nodup ∧
      ((7 : Int) ∈ vals (arrayToBSTree oneBuf Tree.nil).2 ↔
        (7 : Int) ∈ (runSlots oneBuf).map Prod.snd) ∧
      (arrayToBSTree oneBuf Tree.nil).1.getD 10 none =
        (if 10 ≤ 10 ∧ 10 < scanHigh oneBuf 10 then none
         else oneBuf.getD 10 none) :=
  ⟨by decide, by decide,
    (arrayToBSTree_distinct_run_spec oneBuf Tree.nil (by decide)
      (by decide)).1 7,
    (arrayToBSTree_distinct_run_spec oneBuf Tree.nil (by decide)
      (by decide)).2.1 10⟩

/-- Witness for claim C7 on the history of a single insert of value 5:
the retrieval succeeds and hands back that element. -/
theorem retrieve_iff_inserted_witness :
    ((retrieveItem (runOps [Op.ins (0, 5)]) 5).isSome = true ↔
        (5 : Int) ∈ (insertedSince [Op.ins (0, 5)]).map Prod.snd) ∧
      ((0, 5) : Elem).2 = 5 ∧
      ((0, 5) : Elem) ∈ inorder (runOps [Op.ins (0, 5)]) :=
  ⟨(retrieve_iff_inserted [Op.ins (0, 5)] 5).1,
    (retrieve_iff_inserted [Op.ins (0, 5)] 5).2 (0, 5) (by decide)⟩

end BinTree
